import Mathlib

/-!
Verification of the hitakort grid engine (src/hitakort/_hitakort.py and
src/hitakort/defaults.py): coordinate codec, persisted count store and the
two heatmap colour mappings, shallowly embedded in Lean.

Modelling conventions:
* Python dicts are insertion-ordered association lists `List (String × Nat)`.
* The JSON backing file is modelled by its parsed content; the empty list
  stands both for a missing file and for a file holding an empty JSON
  object (both are falsy in `_load_data`, so neither is loaded).
* The regex character classes `[a-zA-Z]` and `\d` are modelled over the
  ASCII alphabet (`\d` in Python also accepts other Unicode decimal digits;
  no claim exercises them).
* Python float expressions (`int(255 * (value / max_value))`,
  `round(c / 255 * 5)`, `int(len ** 0.5)`) are modelled by their exact
  rational values (`Nat` floor division, exact nearest-integer rounding,
  `Nat.sqrt`); on every claim-relevant input the float pipeline computes
  the same integer.
-/

namespace Hitakort

/-- The regex character class [a-zA-Z] of HIT_REGEX (defaults.py). -/
def isAsciiAlpha (c : Char) : Bool :=
  (65 ≤ c.toNat && c.toNat ≤ 90) || (97 ≤ c.toNat && c.toNat ≤ 122)

/-- The regex character class \d of HIT_REGEX, over ASCII digits 0-9. -/
def isAsciiDigit (c : Char) : Bool :=
  48 ≤ c.toNat && c.toNat ≤ 57

/-- Effect of Python str.upper on one ASCII character. -/
def upperChar (c : Char) : Char :=
  if 97 ≤ c.toNat && c.toNat ≤ 122 then Char.ofNat (c.toNat - 32) else c

/-- The while-loop of HitaKort._index_to_column. `idx` is the loop variable
(already shifted to 1-based by the caller); each iteration prepends
`chr(65 + (idx - 1) % 26)` and continues with `(idx - 1) / 26`. The loop
variable strictly decreases, so fuel equal to its start value suffices. -/
def indexToColumnGo : Nat → Nat → List Char → List Char
  | 0, _, result => result
  | fuel + 1, idx, result =>
    match idx with
    | 0 => result
    | m + 1 => indexToColumnGo fuel (m / 26) (Char.ofNat (65 + m % 26) :: result)

/-- HitaKort._index_to_column: 0-based column index to an Excel-style
column label ("A", ..., "Z", "AA", ...). -/
def indexToColumn (index : Nat) : String :=
  ⟨indexToColumnGo (index + 1) (index + 1) []⟩

/-- Canonical form of the loop result: the label for 1-based value `n`. -/
def colE (n : Nat) : List Char :=
  indexToColumnGo n n []

/-- Bijective base-26 value of a label: fold A=1, ..., Z=26 positionally. -/
def colVal (l : List Char) : Nat :=
  l.foldl (fun acc c => acc * 26 + (c.toNat - 64)) 0

/-- Error taxonomy of the core: the three ValueError sites of
_normalize_point (invalid format), input_hit (point out of range) and
_load_data (persisted size mismatch). -/
inductive HKError where
  | invalidFormat
  | outOfRange
  | sizeMismatch
deriving DecidableEq, Repr

/-- The Python regex anchor $ (MULTILINE off): it asserts end of input or
the position just before one single trailing newline. -/
def dollarEnd (rest : List Char) : Bool :=
  rest.isEmpty || rest == ['\n']

/-- First alternative of HIT_REGEX: one or more letters, then one or more
digits, then the $ anchor. The greedy letter group captures the maximal
letter prefix; backtracking cannot help past $, since the character before
which $ could still match is never a digit. -/
def parseShape1 (s : List Char) : Option (List Char × List Char) :=
  if (s.takeWhile isAsciiAlpha).isEmpty
      || ((s.dropWhile isAsciiAlpha).takeWhile isAsciiDigit).isEmpty
      || !dollarEnd ((s.dropWhile isAsciiAlpha).dropWhile isAsciiDigit) then none
  else some (s.takeWhile isAsciiAlpha, (s.dropWhile isAsciiAlpha).takeWhile isAsciiDigit)

/-- Second alternative of HIT_REGEX: one or more digits, then one or more
letters, then the $ anchor. Returns (numbers, letters). -/
def parseShape2 (s : List Char) : Option (List Char × List Char) :=
  if (s.takeWhile isAsciiDigit).isEmpty
      || ((s.dropWhile isAsciiDigit).takeWhile isAsciiAlpha).isEmpty
      || !dollarEnd ((s.dropWhile isAsciiDigit).dropWhile isAsciiAlpha) then none
  else some (s.takeWhile isAsciiDigit, (s.dropWhile isAsciiDigit).takeWhile isAsciiAlpha)

/-- HitaKort._normalize_point: match HIT_REGEX (first alternative first),
upper-case the letter group and emit letters followed by digits; raise
ValueError (invalid format) when neither alternative matches. -/
def normalizePoint (point : String) : Except HKError String :=
  match parseShape1 point.data with
  | some (letters, numbers) => .ok ⟨letters.map upperChar ++ numbers⟩
  | none =>
    match parseShape2 point.data with
    | some (numbers, letters) => .ok ⟨letters.map upperChar ++ numbers⟩
    | none => .error .invalidFormat

/-- State of a HitaKort instance: the grid dict (insertion-ordered
association list of label to count), the grid size, and the parsed content
of the JSON backing file. -/
structure HitaKort where
  grid : List (String × Nat)
  size : Nat
  file : List (String × Nat)
deriving DecidableEq, Repr

/-- HitaKort._initialize_grid: zero counts for every point, rows 1..size
outer, columns 0..size-1 inner. -/
def initGrid (size : Nat) : List (String × Nat) :=
  (List.range size).flatMap (fun row =>
    (List.range size).map (fun col => (indexToColumn col ++ Nat.repr (row + 1), 0)))

/-- HitaKort._load_data: when the file content is truthy (non-empty),
replace grid and size from it if override_size is set or the entry count
equals size squared, else raise ValueError (size mismatch). Size recovery
int(len ** 0.5) is modelled by Nat.sqrt (equal on perfect squares). -/
def loadData (h : HitaKort) (overrideSize : Bool) : Except HKError HitaKort :=
  if h.file.isEmpty then .ok h
  else if overrideSize || h.file.length == h.size ^ 2 then
    .ok { h with grid := h.file, size := Nat.sqrt h.file.length }
  else .error .sizeMismatch

/-- HitaKort.__init__: (file resolution and creation keep the modelled
content unchanged), initialize a zero grid of the requested size, then load
the persisted data; construction fails exactly when _load_data raises. -/
def construct (fileContent : List (String × Nat)) (gridSize : Nat)
    (overrideSize : Bool) : Except HKError HitaKort :=
  loadData { grid := initGrid gridSize, size := gridSize, file := fileContent } overrideSize

/-- HitaKort._save_data: write the whole grid to the backing file. -/
def saveData (h : HitaKort) : HitaKort :=
  { h with file := h.grid }

/-- Python `key in dict` on the grid. -/
def containsKey (g : List (String × Nat)) (key : String) : Bool :=
  g.any (fun e => e.1 == key)

/-- Python `self.grid[key] += 1`: increment the entry in place. -/
def bumpKey : List (String × Nat) → String → List (String × Nat)
  | [], _ => []
  | (k, v) :: rest, key =>
    if k == key then (k, v + 1) :: rest else (k, v) :: bumpKey rest key

/-- HitaKort.input_hit as a state transformer: normalize the point, raise
out-of-range if it is not a grid key, else increment its count and save.
The second component is the object state when the call returns or raises;
every raise happens before any mutation, so it is the input state there. -/
def input_hit (h : HitaKort) (point : String) : Option HKError × HitaKort :=
  match normalizePoint point with
  | .error e => (some e, h)
  | .ok np =>
    if containsKey h.grid np then
      (none, saveData { h with grid := bumpKey h.grid np })
    else (some .outOfRange, h)

/-- Python dict lookup `self.grid[label]` (total with default 0 here; the
grid invariant keeps every generated label present, so the KeyError branch
of the source is unreachable on reachable states). -/
def lookupCount (g : List (String × Nat)) (key : String) : Nat :=
  (g.lookup key).getD 0

/-- HitaKort.generate_heatmap_data: row-major size×size matrix,
entry (row, col) is the count at column label `col`, row label `row + 1`. -/
def generateHeatmapData (h : HitaKort) : List (List Nat) :=
  (List.range h.size).map (fun row =>
    (List.range h.size).map (fun col =>
      lookupCount h.grid (indexToColumn col ++ Nat.repr (row + 1))))

/-- HitaKort._get_color: white when max is 0, else a white-to-red ramp with
intensity int(255 * (value / max_value)) — Python int() truncates, modelled
exactly as Nat floor division. -/
def getColor (value maxValue : Nat) : Nat × Nat × Nat :=
  if maxValue = 0 then (255, 255, 255)
  else
    let intensity := 255 * value / maxValue
    (255, 255 - intensity, 255 - intensity)

/-- Per-cell colour of generate_heatmap_image: red channel 255, green and
blue 255 - uint8(normalized * 255) where normalized is value / max (or the
raw value when max is 0); the uint8 cast truncates and wraps mod 256. -/
def rasterCellColor (value maxValue : Nat) : Nat × Nat × Nat :=
  if maxValue = 0 then
    (255, 255 - value * 255 % 256, 255 - value * 255 % 256)
  else
    (255, 255 - 255 * value / maxValue % 256, 255 - 255 * value / maxValue % 256)

/-- round(c / 255 * 5) of _get_ascii_color: nearest integer to c / 51.
No integer c makes c / 51 a half-integer, so nearest is unambiguous and
the float rounding of the source computes exactly this. -/
def nearestLevel (c : Nat) : Nat :=
  (2 * c + 51) / 102

/-- ANSI 256-colour foreground escape for palette index n. -/
def ansiFg (n : Nat) : String :=
  "\x1b[38;5;" ++ Nat.repr n ++ "m"

/-- HitaKort._get_ascii_color: grayscale entry 255 when max is 0, else the
6x6x6 cube index 16 + 36*r + 6*g + b of the per-channel nearest levels of
_get_color's RGB. -/
def getAsciiColor (value maxValue : Nat) : String :=
  if maxValue = 0 then ansiFg 255
  else
    match getColor value maxValue with
    | (r, g, b) => ansiFg (16 + 36 * nearestLevel r + 6 * nearestLevel g + nearestLevel b)

/-- Python f-string width 2 for a string value: pad right with spaces. -/
def padStr2 (s : String) : String :=
  s ++ ⟨List.replicate (2 - s.length) ' '⟩

/-- Python f-string width 2 for an integer value: pad left with spaces. -/
def padNum2 (n : Nat) : String :=
  ⟨List.replicate (2 - (Nat.repr n).length) ' '⟩ ++ Nat.repr n

/-- HitaKort.generate_ascii_heatmap: per-cell ANSI colour code, two block
glyphs and a reset, a header of column labels and 1-based row labels.
max(max(row) for row in data) is modelled with fold over 0 (equal for the
non-empty grids every claim uses; Python raises on an empty grid). -/
def generateAsciiHeatmap (h : HitaKort) : String :=
  let data := generateHeatmapData h
  let maxValue := (data.map (fun row => row.foldl max 0)).foldl max 0
  let asciiMap := data.map (fun row =>
    String.join (row.map (fun value => getAsciiColor value maxValue ++ "██" ++ "\x1b[0m")))
  let colLabels := "   " ++ String.join ((List.range h.size).map (fun i => padStr2 (indexToColumn i)))
  let labelledMap := colLabels :: asciiMap.enum.map (fun p => padNum2 (p.1 + 1) ++ " " ++ p.2)
  String.intercalate "\n" labelledMap

/-- A fresh store: zero grid of the given size over an absent or empty
backing file (what construct returns for empty file content). -/
def freshHK (n : Nat) : HitaKort :=
  { grid := initGrid n, size := n, file := [] }

/-- Sequence of input_hit calls, stopping at the first error. -/
def hitSeq (h : HitaKort) : List String → Option HKError × HitaKort
  | [] => (none, h)
  | p :: rest =>
    match input_hit h p with
    | (none, h') => hitSeq h' rest
    | (some e, h') => (some e, h')

/-- Rounding a / b to the nearest integer (the rounding the claim about the
raster colour ramp asserts; written for comparison with the source's
truncating division, which is what the code computes). -/
def roundNearest (a b : Nat) : Nat :=
  (2 * a + b) / (2 * b)

/-- Strict lexicographic order on character lists by code point. -/
def lexLt : List Char → List Char → Bool
  | _, [] => false
  | [], _ :: _ => true
  | a :: as, b :: bs =>
    if a.toNat < b.toNat then true
    else if a.toNat = b.toNat then lexLt as bs
    else false

/-- Shorter-length-first, then lexicographic, strict order on labels. -/
def lenLexLt (a b : List Char) : Prop :=
  a.length < b.length ∨ (a.length = b.length ∧ lexLt a b = true)

theorem alpha_iff {c : Char} :
    isAsciiAlpha c = true ↔ (65 ≤ c.toNat ∧ c.toNat ≤ 90) ∨ (97 ≤ c.toNat ∧ c.toNat ≤ 122) := by
  simp [isAsciiAlpha]

theorem digit_iff {c : Char} :
    isAsciiDigit c = true ↔ 48 ≤ c.toNat ∧ c.toNat ≤ 57 := by
  simp [isAsciiDigit]

theorem digit_not_alpha {c : Char} (h : isAsciiDigit c = true) : isAsciiAlpha c = false := by
  rw [Bool.eq_false_iff]
  intro hc
  rw [alpha_iff] at hc
  rw [digit_iff] at h
  omega

theorem alpha_not_digit {c : Char} (h : isAsciiAlpha c = true) : isAsciiDigit c = false := by
  rw [Bool.eq_false_iff]
  intro hc
  rw [digit_iff] at hc
  rw [alpha_iff] at h
  omega

theorem takeWhile_all {p : Char → Bool} {l : List Char} (h : ∀ c ∈ l, p c = true) :
    l.takeWhile p = l := by
  induction l with
  | nil => rfl
  | cons a l ih =>
    simp [List.takeWhile_cons, h a (by simp), ih (fun c hc => h c (by simp [hc]))]

theorem dropWhile_all {p : Char → Bool} {l : List Char} (h : ∀ c ∈ l, p c = true) :
    l.dropWhile p = [] := by
  induction l with
  | nil => rfl
  | cons a l ih =>
    simp [List.dropWhile_cons, h a (by simp), ih (fun c hc => h c (by simp [hc]))]

theorem takeWhile_append_all {p : Char → Bool} {l1 : List Char} (l2 : List Char)
    (h : ∀ c ∈ l1, p c = true) :
    (l1 ++ l2).takeWhile p = l1 ++ l2.takeWhile p := by
  induction l1 with
  | nil => rfl
  | cons a l ih =>
    simp [List.cons_append, List.takeWhile_cons, h a (by simp),
      ih (fun c hc => h c (by simp [hc]))]

theorem dropWhile_append_all {p : Char → Bool} {l1 : List Char} (l2 : List Char)
    (h : ∀ c ∈ l1, p c = true) :
    (l1 ++ l2).dropWhile p = l2.dropWhile p := by
  induction l1 with
  | nil => rfl
  | cons a l ih =>
    simp [List.cons_append, List.dropWhile_cons, h a (by simp),
      ih (fun c hc => h c (by simp [hc]))]

/-- Characterization of the first regex alternative: it matches exactly the
letters-then-digits splits, and captures that (unique) split. -/
theorem parseShape1_eq_some {s L D : List Char} :
    parseShape1 s = some (L, D) ↔
      (L ≠ [] ∧ D ≠ [] ∧ (∀ c ∈ L, isAsciiAlpha c = true) ∧
        (∀ c ∈ D, isAsciiDigit c = true) ∧ (s = L ++ D ∨ s = L ++ D ++ ['\n'])) := by
  constructor
  · intro h
    unfold parseShape1 at h
    split at h
    · exact absurd h (by simp)
    · next hcond =>
      simp only [Bool.or_eq_true, Bool.not_eq_eq_eq_not, Bool.not_true,
        List.isEmpty_eq_false, List.isEmpty_eq_true, not_or, Bool.not_eq_false] at hcond
      obtain ⟨⟨hL, hD⟩, hdol⟩ := hcond
      have hr2 : (s.dropWhile isAsciiAlpha).dropWhile isAsciiDigit = [] ∨
          (s.dropWhile isAsciiAlpha).dropWhile isAsciiDigit = ['\n'] := by
        simpa only [dollarEnd, Bool.or_eq_true, List.isEmpty_eq_true,
          beq_iff_eq] using hdol
      injection h with h2
      injection h2 with hL' hD'
      subst hL' hD'
      refine ⟨hL, hD, fun c hc => List.mem_takeWhile_imp hc,
        fun c hc => List.mem_takeWhile_imp hc, ?_⟩
      have hs : s = s.takeWhile isAsciiAlpha ++
          ((s.dropWhile isAsciiAlpha).takeWhile isAsciiDigit ++
            (s.dropWhile isAsciiAlpha).dropWhile isAsciiDigit) := by
        rw [List.takeWhile_append_dropWhile, List.takeWhile_append_dropWhile]
      rcases hr2 with hr2 | hr2
      · rw [hr2, List.append_nil] at hs
        exact Or.inl hs
      · rw [hr2, ← List.append_assoc] at hs
        exact Or.inr hs
  · rintro ⟨hL, hD, hLa, hDd, rfl | rfl⟩
    · unfold parseShape1
      obtain ⟨d, D', rfl⟩ := List.exists_cons_of_ne_nil hD
      have h1 : (L ++ d :: D').takeWhile isAsciiAlpha = L := by
        rw [takeWhile_append_all _ hLa, List.takeWhile_cons,
          digit_not_alpha (hDd d (by simp))]
        simp
      have h2 : (L ++ d :: D').dropWhile isAsciiAlpha = d :: D' := by
        rw [dropWhile_append_all _ hLa, List.dropWhile_cons,
          digit_not_alpha (hDd d (by simp))]
        simp
      rw [h1, h2, takeWhile_all hDd, dropWhile_all hDd]
      simp [List.isEmpty_iff, hL, hD, dollarEnd]
    · unfold parseShape1
      obtain ⟨d, D', rfl⟩ := List.exists_cons_of_ne_nil hD
      have hnd : isAsciiDigit '\n' = false := rfl
      rw [show (L ++ d :: D') ++ ['\n'] = L ++ ((d :: D') ++ ['\n']) from
        List.append_assoc L (d :: D') ['\n']]
      have h1 : (L ++ ((d :: D') ++ ['\n'])).takeWhile isAsciiAlpha = L := by
        rw [takeWhile_append_all _ hLa, List.cons_append, List.takeWhile_cons,
          digit_not_alpha (hDd d (by simp))]
        simp
      have h2 : (L ++ ((d :: D') ++ ['\n'])).dropWhile isAsciiAlpha =
          (d :: D') ++ ['\n'] := by
        rw [dropWhile_append_all _ hLa, List.cons_append, List.dropWhile_cons,
          digit_not_alpha (hDd d (by simp))]
        simp
      have h3 : ((d :: D') ++ ['\n']).takeWhile isAsciiDigit = d :: D' := by
        rw [takeWhile_append_all _ hDd]
        simp [List.takeWhile_cons, hnd]
      have h4 : ((d :: D') ++ ['\n']).dropWhile isAsciiDigit = ['\n'] := by
        rw [dropWhile_append_all _ hDd]
        simp [List.dropWhile_cons, hnd]
      rw [h1, h2, h3, h4]
      simp [List.isEmpty_iff, hL, hD, dollarEnd]

/-- Characterization of the second regex alternative: digits then letters,
then the $ anchor. -/
theorem parseShape2_eq_some {s D L : List Char} :
    parseShape2 s = some (D, L) ↔
      (D ≠ [] ∧ L ≠ [] ∧ (∀ c ∈ D, isAsciiDigit c = true) ∧
        (∀ c ∈ L, isAsciiAlpha c = true) ∧ (s = D ++ L ∨ s = D ++ L ++ ['\n'])) := by
  constructor
  · intro h
    unfold parseShape2 at h
    split at h
    · exact absurd h (by simp)
    · next hcond =>
      simp only [Bool.or_eq_true, Bool.not_eq_eq_eq_not, Bool.not_true,
        List.isEmpty_eq_false, List.isEmpty_eq_true, not_or, Bool.not_eq_false] at hcond
      obtain ⟨⟨hD, hL⟩, hdol⟩ := hcond
      have hr2 : (s.dropWhile isAsciiDigit).dropWhile isAsciiAlpha = [] ∨
          (s.dropWhile isAsciiDigit).dropWhile isAsciiAlpha = ['\n'] := by
        simpa only [dollarEnd, Bool.or_eq_true, List.isEmpty_eq_true,
          beq_iff_eq] using hdol
      injection h with h2
      injection h2 with hD' hL'
      subst hD' hL'
      refine ⟨hD, hL, fun c hc => List.mem_takeWhile_imp hc,
        fun c hc => List.mem_takeWhile_imp hc, ?_⟩
      have hs : s = s.takeWhile isAsciiDigit ++
          ((s.dropWhile isAsciiDigit).takeWhile isAsciiAlpha ++
            (s.dropWhile isAsciiDigit).dropWhile isAsciiAlpha) := by
        rw [List.takeWhile_append_dropWhile, List.takeWhile_append_dropWhile]
      rcases hr2 with hr2 | hr2
      · rw [hr2, List.append_nil] at hs
        exact Or.inl hs
      · rw [hr2, ← List.append_assoc] at hs
        exact Or.inr hs
  · rintro ⟨hD, hL, hDd, hLa, rfl | rfl⟩
    · unfold parseShape2
      obtain ⟨a, L', rfl⟩ := List.exists_cons_of_ne_nil hL
      have h1 : (D ++ a :: L').takeWhile isAsciiDigit = D := by
        rw [takeWhile_append_all _ hDd, List.takeWhile_cons,
          alpha_not_digit (hLa a (by simp))]
        simp
      have h2 : (D ++ a :: L').dropWhile isAsciiDigit = a :: L' := by
        rw [dropWhile_append_all _ hDd, List.dropWhile_cons,
          alpha_not_digit (hLa a (by simp))]
        simp
      rw [h1, h2, takeWhile_all hLa, dropWhile_all hLa]
      simp [List.isEmpty_iff, hD, hL, dollarEnd]
    · unfold parseShape2
      obtain ⟨a, L', rfl⟩ := List.exists_cons_of_ne_nil hL
      have hna : isAsciiAlpha '\n' = false := rfl
      rw [show (D ++ a :: L') ++ ['\n'] = D ++ ((a :: L') ++ ['\n']) from
        List.append_assoc D (a :: L') ['\n']]
      have h1 : (D ++ ((a :: L') ++ ['\n'])).takeWhile isAsciiDigit = D := by
        rw [takeWhile_append_all _ hDd, List.cons_append, List.takeWhile_cons,
          alpha_not_digit (hLa a (by simp))]
        simp
      have h2 : (D ++ ((a :: L') ++ ['\n'])).dropWhile isAsciiDigit =
          (a :: L') ++ ['\n'] := by
        rw [dropWhile_append_all _ hDd, List.cons_append, List.dropWhile_cons,
          alpha_not_digit (hLa a (by simp))]
        simp
      have h3 : ((a :: L') ++ ['\n']).takeWhile isAsciiAlpha = a :: L' := by
        rw [takeWhile_append_all _ hLa]
        simp [List.takeWhile_cons, hna]
      have h4 : ((a :: L') ++ ['\n']).dropWhile isAsciiAlpha = ['\n'] := by
        rw [dropWhile_append_all _ hLa]
        simp [List.dropWhile_cons, hna]
      rw [h1, h2, h3, h4]
      simp [List.isEmpty_iff, hD, hL, dollarEnd]

/-- A digits-first input never matches the first alternative. -/
theorem parseShape1_digits_first {D L : List Char} (hD : D ≠ [])
    (hDd : ∀ c ∈ D, isAsciiDigit c = true) :
    parseShape1 (D ++ L) = none := by
  unfold parseShape1
  obtain ⟨d, D', rfl⟩ := List.exists_cons_of_ne_nil hD
  rw [List.cons_append, List.takeWhile_cons, digit_not_alpha (hDd d (by simp))]
  simp

/-- Acceptance of both shapes, with the canonical output: upper-cased
letters followed by the digits verbatim. -/
theorem normalizePoint_shapes {L D : List Char} (hL : L ≠ [])
    (hLa : ∀ c ∈ L, isAsciiAlpha c = true) (hD : D ≠ [])
    (hDd : ∀ c ∈ D, isAsciiDigit c = true) :
    normalizePoint ⟨L ++ D⟩ = .ok ⟨L.map upperChar ++ D⟩ ∧
    normalizePoint ⟨D ++ L⟩ = .ok ⟨L.map upperChar ++ D⟩ := by
  constructor
  · have h1 : parseShape1 (L ++ D) = some (L, D) :=
      parseShape1_eq_some.mpr ⟨hL, hD, hLa, hDd, Or.inl rfl⟩
    unfold normalizePoint
    rw [show (String.mk (L ++ D)).data = L ++ D from rfl, h1]
  · have h1 : parseShape1 (D ++ L) = none := parseShape1_digits_first hD hDd
    have h2 : parseShape2 (D ++ L) = some (D, L) :=
      parseShape2_eq_some.mpr ⟨hD, hL, hDd, hLa, Or.inl rfl⟩
    unfold normalizePoint
    rw [show (String.mk (D ++ L)).data = D ++ L from rfl, h1, h2]

/-- Acceptance of both shapes with one trailing newline, which the $
anchor tolerates; the captured groups and hence the output are unchanged. -/
theorem normalizePoint_shapes_newline {L D : List Char} (hL : L ≠ [])
    (hLa : ∀ c ∈ L, isAsciiAlpha c = true) (hD : D ≠ [])
    (hDd : ∀ c ∈ D, isAsciiDigit c = true) :
    normalizePoint ⟨L ++ D ++ ['\n']⟩ = .ok ⟨L.map upperChar ++ D⟩ ∧
    normalizePoint ⟨D ++ L ++ ['\n']⟩ = .ok ⟨L.map upperChar ++ D⟩ := by
  constructor
  · have h1 : parseShape1 (L ++ D ++ ['\n']) = some (L, D) :=
      parseShape1_eq_some.mpr ⟨hL, hD, hLa, hDd, Or.inr rfl⟩
    unfold normalizePoint
    rw [show (String.mk (L ++ D ++ ['\n'])).data = L ++ D ++ ['\n'] from rfl, h1]
  · have h1 : parseShape1 (D ++ L ++ ['\n']) = none := by
      rw [List.append_assoc]
      exact parseShape1_digits_first hD hDd
    have h2 : parseShape2 (D ++ L ++ ['\n']) = some (D, L) :=
      parseShape2_eq_some.mpr ⟨hD, hL, hDd, hLa, Or.inr rfl⟩
    unfold normalizePoint
    rw [show (String.mk (D ++ L ++ ['\n'])).data = D ++ L ++ ['\n'] from rfl, h1, h2]

theorem lookup_bumpKey_self {g : List (String × Nat)} {key : String}
    (hk : containsKey g key = true) :
    (bumpKey g key).lookup key = (g.lookup key).map (· + 1) := by
  induction g with
  | nil => simp [containsKey] at hk
  | cons e g ih =>
    obtain ⟨k, v⟩ := e
    by_cases hkey : k = key
    · subst hkey
      simp [bumpKey, List.lookup]
    · have hbk : (k == key) = false := beq_eq_false_iff_ne.mpr hkey
      have hkb : (key == k) = false := beq_eq_false_iff_ne.mpr (Ne.symm hkey)
      have hk' : containsKey g key = true := by
        have hcons : containsKey ((k, v) :: g) key = ((k == key) || containsKey g key) := rfl
        rw [hcons, hbk, Bool.false_or] at hk
        exact hk
      rw [show bumpKey ((k, v) :: g) key = (k, v) :: bumpKey g key from by
        simp [bumpKey, hbk]]
      rw [show List.lookup key ((k, v) :: bumpKey g key) = List.lookup key (bumpKey g key) from by
        simp [List.lookup, hkb]]
      rw [show List.lookup key ((k, v) :: g) = List.lookup key g from by
        simp [List.lookup, hkb]]
      exact ih hk'

theorem lookup_bumpKey_other {g : List (String × Nat)} {key k' : String}
    (hne : k' ≠ key) :
    (bumpKey g key).lookup k' = g.lookup k' := by
  induction g with
  | nil => rfl
  | cons e g ih =>
    obtain ⟨k, v⟩ := e
    by_cases hkey : k = key
    · subst hkey
      simp [bumpKey, List.lookup, beq_eq_false_iff_ne.mpr hne]
    · by_cases hk' : k' = k
      · subst hk'
        simp [bumpKey, List.lookup, beq_eq_false_iff_ne.mpr hkey]
      · simp [bumpKey, List.lookup, beq_eq_false_iff_ne.mpr hkey,
          beq_eq_false_iff_ne.mpr hk', ih]

theorem bumpKey_length (g : List (String × Nat)) (key : String) :
    (bumpKey g key).length = g.length := by
  induction g with
  | nil => rfl
  | cons e g ih =>
    obtain ⟨k, v⟩ := e
    by_cases hkey : k = key
    · simp [bumpKey, hkey]
    · simp [bumpKey, hkey, ih]

theorem containsKey_ne_nil {g : List (String × Nat)} {key : String}
    (hk : containsKey g key = true) : g ≠ [] := by
  intro he
  subst he
  simp [containsKey] at hk

/-- Any store successfully constructed over a non-empty file has loaded
that file as its grid (the load happens whether or not override is set). -/
theorem construct_ok_grid {file : List (String × Nat)} {gs : Nat} {ov : Bool}
    {h' : HitaKort} (hne : file ≠ []) (hc : construct file gs ov = .ok h') :
    h'.grid = file := by
  unfold construct loadData at hc
  simp only [List.isEmpty_eq_true, hne, if_false] at hc
  split at hc
  · injection hc with hc'
    rw [← hc']
  · exact absurd hc (by simp)

/-- C1: for a raw point whose normalized label is one of the grid keys,
record_hit succeeds, increments exactly that entry by 1, leaves every other
entry unchanged, rewrites the whole grid to the backing file, and any
successfully constructed store over that file observes the incremented
count. -/
theorem C1_record_hit (h : HitaKort) (raw np : String)
    (hn : normalizePoint raw = .ok np)
    (hk : containsKey h.grid np = true) :
    (input_hit h raw).1 = none ∧
    (input_hit h raw).2.grid.lookup np = (h.grid.lookup np).map (· + 1) ∧
    (∀ k, k ≠ np → (input_hit h raw).2.grid.lookup k = h.grid.lookup k) ∧
    (input_hit h raw).2.file = (input_hit h raw).2.grid ∧
    (∀ gs ov h', construct (input_hit h raw).2.file gs ov = .ok h' →
      h'.grid.lookup np = (h.grid.lookup np).map (· + 1)) := by
  have hstep : input_hit h raw =
      (none, { grid := bumpKey h.grid np, size := h.size, file := bumpKey h.grid np }) := by
    simp [input_hit, hn, hk, saveData]
  rw [hstep]
  refine ⟨rfl, lookup_bumpKey_self hk, fun k hk' => lookup_bumpKey_other hk', rfl, ?_⟩
  intro gs ov h' hc
  have hne : bumpKey h.grid np ≠ [] := by
    have h1 := containsKey_ne_nil hk
    have h2 := bumpKey_length h.grid np
    intro he
    rw [he] at h2
    exact h1 (List.length_eq_zero.mp h2.symm)
  rw [construct_ok_grid hne hc]
  exact lookup_bumpKey_self hk

theorem C1_record_hit_witness :
    (input_hit (freshHK 6) "a1").1 = none ∧
    (input_hit (freshHK 6) "a1").2.grid.lookup "A1" =
      ((freshHK 6).grid.lookup "A1").map (· + 1) := by
  have h := C1_record_hit (freshHK 6) "a1" "A1" rfl (by decide)
  exact ⟨h.1, h.2.1⟩

/-- C2: a raw point whose normalized label is not a grid key fails with
OutOfRange; on any failure (InvalidFormat or OutOfRange) the grid and the
backing file are unchanged. -/
theorem C2_failed_hit (h : HitaKort) (raw : String) :
    (∀ np, normalizePoint raw = .ok np → containsKey h.grid np = false →
      input_hit h raw = (some .outOfRange, h)) ∧
    (∀ e, normalizePoint raw = .error e → input_hit h raw = (some e, h)) ∧
    (∀ e, (input_hit h raw).1 = some e → (input_hit h raw).2 = h) := by
  refine ⟨?_, ?_, ?_⟩
  · intro np hn hk
    simp [input_hit, hn, hk]
  · intro e hn
    simp [input_hit, hn]
  · intro e
    unfold input_hit
    cases hn : normalizePoint raw with
    | error e' => simp
    | ok np =>
      by_cases hk : containsKey h.grid np
      · simp [hk]
      · simp [hk]

theorem C2_failed_hit_witness :
    input_hit (freshHK 6) "G1" = (some HKError.outOfRange, freshHK 6) ∧
    input_hit (freshHK 6) "A" = (some HKError.invalidFormat, freshHK 6) := by
  refine ⟨(C2_failed_hit (freshHK 6) "G1").1 "G1" rfl (by decide),
    (C2_failed_hit (freshHK 6) "A").2.1 HKError.invalidFormat rfl⟩

/-- C3: constructing over a non-empty persisted file with override disabled
and an entry count different from the requested size squared fails with a
SizeMismatch error; no store value is produced. -/
theorem C3_size_mismatch (file : List (String × Nat)) (gs : Nat)
    (hne : file ≠ []) (hlen : file.length ≠ gs ^ 2) :
    construct file gs false = .error .sizeMismatch := by
  unfold construct loadData
  simp [hne, hlen]

theorem C3_size_mismatch_witness :
    construct (initGrid 3) 2 false = Except.error HKError.sizeMismatch :=
  C3_size_mismatch (initGrid 3) 2 (by decide) (by decide)

/-- C4: all valid raw point strings with the same letters (up to case) and
the same digits, with letters before or after the digits, normalize to the
identical canonical label: the upper-cased letters followed by the digits. -/
theorem C4_normalize_canonical (L1 L2 D : List Char)
    (h1 : L1 ≠ []) (ha1 : ∀ c ∈ L1, isAsciiAlpha c = true)
    (ha2 : ∀ c ∈ L2, isAsciiAlpha c = true)
    (hcase : L1.map upperChar = L2.map upperChar)
    (hD : D ≠ []) (hDd : ∀ c ∈ D, isAsciiDigit c = true) :
    normalizePoint ⟨L1 ++ D⟩ = .ok ⟨L1.map upperChar ++ D⟩ ∧
    normalizePoint ⟨L2 ++ D⟩ = .ok ⟨L1.map upperChar ++ D⟩ ∧
    normalizePoint ⟨D ++ L1⟩ = .ok ⟨L1.map upperChar ++ D⟩ ∧
    normalizePoint ⟨D ++ L2⟩ = .ok ⟨L1.map upperChar ++ D⟩ := by
  have h2 : L2 ≠ [] := by
    intro he
    subst he
    simp only [List.map_nil, List.map_eq_nil_iff] at hcase
    exact h1 hcase
  obtain ⟨p1, p2⟩ := normalizePoint_shapes h1 ha1 hD hDd
  obtain ⟨q1, q2⟩ := normalizePoint_shapes h2 ha2 hD hDd
  refine ⟨p1, ?_, p2, ?_⟩
  · rw [hcase]
    exact q1
  · rw [hcase]
    exact q2

theorem C4_normalize_canonical_witness :
    normalizePoint "a1" = Except.ok "A1" ∧ normalizePoint "A1" = Except.ok "A1" ∧
    normalizePoint "1a" = Except.ok "A1" ∧ normalizePoint "1A" = Except.ok "A1" := by
  have h := C4_normalize_canonical ['a'] ['A'] ['1'] (by decide) (by decide)
    (by decide) (by decide) (by decide) (by decide)
  exact h

/-- C5 counterexample: an input with a trailing newline, which the claim
classifies as embedded whitespace that must fail with InvalidFormat, is
accepted: the regex anchor $ of Python matches just before one single
trailing newline, so normalize strips nothing yet succeeds. -/
theorem C5_counterexample :
    normalizePoint "A1\n" = Except.ok "A1" ∧
    normalizePoint "A1\n" ≠ Except.error HKError.invalidFormat := by
  refine ⟨rfl, ?_⟩
  rw [show normalizePoint "A1\n" = Except.ok "A1" from rfl]
  simp

/-- C5 amended: normalize accepts exactly the strings of shape letters then
digits, or digits then letters, each optionally followed by one single
trailing newline (tolerated by the $ anchor of Python); every other input
(letters with no digits, digits with no letters, empty string, any other
embedded whitespace or symbols) fails with an InvalidFormat error. -/
theorem C5_normalize_domain (s : String) :
    ((∃ t, normalizePoint s = .ok t) ↔
      (∃ L D, L ≠ [] ∧ (∀ c ∈ L, isAsciiAlpha c = true) ∧ D ≠ [] ∧
        (∀ c ∈ D, isAsciiDigit c = true) ∧
        (s.data = L ++ D ∨ s.data = D ++ L ∨
          s.data = L ++ D ++ ['\n'] ∨ s.data = D ++ L ++ ['\n']))) ∧
    ((¬ ∃ L D, L ≠ [] ∧ (∀ c ∈ L, isAsciiAlpha c = true) ∧ D ≠ [] ∧
        (∀ c ∈ D, isAsciiDigit c = true) ∧
        (s.data = L ++ D ∨ s.data = D ++ L ∨
          s.data = L ++ D ++ ['\n'] ∨ s.data = D ++ L ++ ['\n'])) →
      normalizePoint s = .error .invalidFormat) := by
  have hshape : ∀ L D, L ≠ [] → (∀ c ∈ L, isAsciiAlpha c = true) → D ≠ [] →
      (∀ c ∈ D, isAsciiDigit c = true) →
      (s.data = L ++ D ∨ s.data = D ++ L ∨
        s.data = L ++ D ++ ['\n'] ∨ s.data = D ++ L ++ ['\n']) →
      normalizePoint s = .ok ⟨L.map upperChar ++ D⟩ := by
    intro L D hL hLa hD hDd hs
    have hrw : ∀ u : List Char, s.data = u → s = (⟨u⟩ : String) := by
      intro u hu
      rw [← hu]
    rcases hs with hs | hs | hs | hs
    · rw [hrw _ hs]
      exact (normalizePoint_shapes hL hLa hD hDd).1
    · rw [hrw _ hs]
      exact (normalizePoint_shapes hL hLa hD hDd).2
    · rw [hrw _ hs]
      exact (normalizePoint_shapes_newline hL hLa hD hDd).1
    · rw [hrw _ hs]
      exact (normalizePoint_shapes_newline hL hLa hD hDd).2
  constructor
  · constructor
    · rintro ⟨t, ht⟩
      unfold normalizePoint at ht
      cases e1 : parseShape1 s.data with
      | some p =>
        obtain ⟨L, D⟩ := p
        obtain ⟨hL, hD, hLa, hDd, hs⟩ := parseShape1_eq_some.mp e1
        refine ⟨L, D, hL, hLa, hD, hDd, ?_⟩
        rcases hs with hs | hs
        · exact Or.inl hs
        · exact Or.inr (Or.inr (Or.inl hs))
      | none =>
        rw [e1] at ht
        cases e2 : parseShape2 s.data with
        | some p =>
          obtain ⟨D, L⟩ := p
          obtain ⟨hD, hL, hDd, hLa, hs⟩ := parseShape2_eq_some.mp e2
          refine ⟨L, D, hL, hLa, hD, hDd, ?_⟩
          rcases hs with hs | hs
          · exact Or.inr (Or.inl hs)
          · exact Or.inr (Or.inr (Or.inr hs))
        | none =>
          rw [e2] at ht
          exact absurd ht (by simp)
    · rintro ⟨L, D, hL, hLa, hD, hDd, hs⟩
      exact ⟨⟨L.map upperChar ++ D⟩, hshape L D hL hLa hD hDd hs⟩
  · intro hn
    cases e1 : parseShape1 s.data with
    | some p =>
      obtain ⟨L, D⟩ := p
      obtain ⟨hL, hD, hLa, hDd, hs⟩ := parseShape1_eq_some.mp e1
      refine absurd ⟨L, D, hL, hLa, hD, hDd, ?_⟩ hn
      rcases hs with hs | hs
      · exact Or.inl hs
      · exact Or.inr (Or.inr (Or.inl hs))
    | none =>
      cases e2 : parseShape2 s.data with
      | some p =>
        obtain ⟨D, L⟩ := p
        obtain ⟨hD, hL, hDd, hLa, hs⟩ := parseShape2_eq_some.mp e2
        refine absurd ⟨L, D, hL, hLa, hD, hDd, ?_⟩ hn
        rcases hs with hs | hs
        · exact Or.inr (Or.inl hs)
        · exact Or.inr (Or.inr (Or.inr hs))
      | none =>
        simp [normalizePoint, e1, e2]

theorem C5_normalize_domain_witness :
    ∃ t, normalizePoint "1a" = Except.ok t :=
  (C5_normalize_domain "1a").1.mpr
    ⟨['a'], ['1'], by decide, by decide, by decide, by decide,
      Or.inr (Or.inl (by decide))⟩

theorem indexToColumnGo_append (f : Nat) :
    ∀ idx acc, indexToColumnGo f idx acc = indexToColumnGo f idx [] ++ acc := by
  induction f with
  | zero => intro idx acc; rfl
  | succ f ih =>
    intro idx acc
    cases idx with
    | zero => rfl
    | succ m =>
      rw [show indexToColumnGo (f + 1) (m + 1) acc =
        indexToColumnGo f (m / 26) (Char.ofNat (65 + m % 26) :: acc) from rfl]
      rw [ih (m / 26) (Char.ofNat (65 + m % 26) :: acc)]
      rw [show indexToColumnGo (f + 1) (m + 1) [] =
        indexToColumnGo f (m / 26) [Char.ofNat (65 + m % 26)] from rfl]
      rw [ih (m / 26) [Char.ofNat (65 + m % 26)]]
      rw [List.append_assoc]
      rfl

/-- The loop result does not depend on the fuel once the fuel dominates the
loop variable. -/
theorem indexToColumnGo_fuel :
    ∀ idx f acc, idx ≤ f → indexToColumnGo f idx acc = colE idx ++ acc := by
  intro idx
  induction idx using Nat.strong_induction_on with
  | _ idx ih =>
    intro f acc hf
    cases idx with
    | zero =>
      cases f with
      | zero => rfl
      | succ f => rfl
    | succ m =>
      cases f with
      | zero => omega
      | succ f =>
        have hq : m / 26 ≤ m := Nat.div_le_self m 26
        have hlt : m / 26 < m + 1 := Nat.lt_succ_of_le hq
        rw [show indexToColumnGo (f + 1) (m + 1) acc =
          indexToColumnGo f (m / 26) (Char.ofNat (65 + m % 26) :: acc) from rfl]
        rw [ih (m / 26) hlt f _ (by omega)]
        have hE : colE (m + 1) = colE (m / 26) ++ [Char.ofNat (65 + m % 26)] := by
          show indexToColumnGo (m + 1) (m + 1) [] = _
          rw [show indexToColumnGo (m + 1) (m + 1) [] =
            indexToColumnGo m (m / 26) [Char.ofNat (65 + m % 26)] from rfl]
          rw [ih (m / 26) hlt m _ hq]
        rw [hE, List.append_assoc]
        rfl

theorem colE_zero : colE 0 = [] := rfl

theorem colE_succ (m : Nat) :
    colE (m + 1) = colE (m / 26) ++ [Char.ofNat (65 + m % 26)] := by
  show indexToColumnGo (m + 1) (m + 1) [] = _
  rw [show indexToColumnGo (m + 1) (m + 1) [] =
    indexToColumnGo m (m / 26) [Char.ofNat (65 + m % 26)] from rfl]
  rw [indexToColumnGo_fuel (m / 26) m _ (Nat.div_le_self m 26)]

theorem char_toNat_ofNat_small : ∀ k, k < 128 → (Char.ofNat k).toNat = k := by
  decide

theorem colVal_append_last (l : List Char) (c : Char) :
    colVal (l ++ [c]) = colVal l * 26 + (c.toNat - 64) := by
  unfold colVal
  rw [List.foldl_append]
  rfl

/-- The fold colVal decodes the encoder: every label carries its 1-based
column value, so the encoding is injective. -/
theorem colVal_colE : ∀ n, colVal (colE n) = n := by
  intro n
  induction n using Nat.strong_induction_on with
  | _ n ih =>
    cases n with
    | zero => rfl
    | succ m =>
      rw [colE_succ, colVal_append_last,
        ih (m / 26) (Nat.lt_succ_of_le (Nat.div_le_self m 26))]
      rw [char_toNat_ofNat_small (65 + m % 26) (by omega)]
      omega

theorem colE_injective {a b : Nat} (h : colE a = colE b) : a = b := by
  have ha := colVal_colE a
  rw [h, colVal_colE b] at ha
  exact ha.symm

theorem colE_ne_nil (n : Nat) (h : 0 < n) : colE n ≠ [] := by
  cases n with
  | zero => omega
  | succ m =>
    rw [colE_succ]
    simp

theorem lexLt_append_last {c1 c2 : Char} (l : List Char) (h : c1.toNat < c2.toNat) :
    lexLt (l ++ [c1]) (l ++ [c2]) = true := by
  induction l with
  | nil => simp [lexLt, h]
  | cons a l ih => simp [lexLt, ih]

theorem lexLt_append_congr : ∀ {l1 l2 : List Char}, l1.length = l2.length →
    lexLt l1 l2 = true → ∀ c1 c2, lexLt (l1 ++ [c1]) (l2 ++ [c2]) = true := by
  intro l1
  induction l1 with
  | nil =>
    intro l2 hlen h c1 c2
    rw [show l2 = [] from (List.length_eq_zero.mp hlen.symm)] at h
    exact absurd h (by simp [lexLt])
  | cons a l ih =>
    intro l2 hlen h c1 c2
    cases l2 with
    | nil => simp at hlen
    | cons b bs =>
      by_cases hab : a.toNat < b.toNat
      · simp [lexLt, hab]
      · by_cases heq : a.toNat = b.toNat
        · have h' : lexLt l bs = true := by
            simpa [lexLt, hab, heq] using h
          have hlen' : l.length = bs.length := by simpa using hlen
          simp [lexLt, hab, heq, ih hlen' h' c1 c2]
        · exact absurd h (by simp [lexLt, hab, heq])

theorem lenLexLt_snoc {l1 l2 : List Char} (c1 c2 : Char) (h : lenLexLt l1 l2) :
    lenLexLt (l1 ++ [c1]) (l2 ++ [c2]) := by
  cases h with
  | inl h => exact Or.inl (by simp [h])
  | inr h => exact Or.inr ⟨by simp [h.1], lexLt_append_congr h.1 h.2 c1 c2⟩

theorem lenLexLt_last (l : List Char) {c1 c2 : Char} (h : c1.toNat < c2.toNat) :
    lenLexLt (l ++ [c1]) (l ++ [c2]) :=
  Or.inr ⟨by simp, lexLt_append_last l h⟩

/-- Strict monotonicity of the encoder for the shorter-length-first, then
lexicographic, order on labels. -/
theorem colE_mono : ∀ b a, a < b → lenLexLt (colE a) (colE b) := by
  intro b
  induction b using Nat.strong_induction_on with
  | _ b ih =>
    intro a hab
    cases b with
    | zero => omega
    | succ m =>
      cases a with
      | zero =>
        rw [colE_zero]
        refine Or.inl ?_
        rw [colE_succ]
        simp
      | succ a' =>
        have ha' : a' < m := by omega
        rw [colE_succ a', colE_succ m]
        by_cases hq : a' / 26 = m / 26
        · rw [hq]
          apply lenLexLt_last
          rw [char_toNat_ofNat_small (65 + a' % 26) (by omega),
            char_toNat_ofNat_small (65 + m % 26) (by omega)]
          omega
        · have hle : a' / 26 ≤ m / 26 := Nat.div_le_div_right (le_of_lt ha')
          have hqlt : a' / 26 < m / 26 := by omega
          exact lenLexLt_snoc _ _ (ih (m / 26) (by omega) (a' / 26) hqlt)

/-- C6: column_to_label satisfies the contract values, decodes back to its
input under the bijective base-26 value map (hence is injective), and is
strictly monotonic for shorter-length-first then lexicographic label
order. -/
theorem C6_column_to_label :
    indexToColumn 0 = "A" ∧ indexToColumn 25 = "Z" ∧ indexToColumn 26 = "AA" ∧
    indexToColumn 51 = "AZ" ∧ indexToColumn 701 = "ZZ" ∧
    (∀ i, colVal (indexToColumn i).data = i + 1) ∧
    Function.Injective indexToColumn ∧
    (∀ i j : Nat, i < j → lenLexLt (indexToColumn i).data (indexToColumn j).data) := by
  refine ⟨by decide, by decide, by decide, by decide, by decide, ?_, ?_, ?_⟩
  · intro i
    exact colVal_colE (i + 1)
  · intro i j hij
    have h : colE (i + 1) = colE (j + 1) := congrArg String.data hij
    have := colE_injective h
    omega
  · intro i j hij
    exact colE_mono (j + 1) (i + 1) (by omega)

theorem C6_column_to_label_witness :
    lenLexLt (indexToColumn 3).data (indexToColumn 30).data :=
  C6_column_to_label.2.2.2.2.2.2.2 3 30 (by decide)

theorem getD_range_map {α : Type} (f : Nat → α) (n r : Nat) (d : α) (hr : r < n) :
    ((List.range n).map f).getD r d = f r := by
  have hlen : r < ((List.range n).map f).length := by simpa using hr
  rw [List.getD_eq_getElem?_getD, List.getElem?_eq_getElem hlen]
  simp

/-- C7: raw counts is a side-effect-free row-major size by size matrix whose
row index r holds row label r+1 and whose column index c holds column label
column_to_label c; the 6 by 6 scenario with two hits on A1 and one on F6
yields exactly the expected matrix with total 3. -/
theorem C7_raw_counts (h : HitaKort) :
    (generateHeatmapData h).length = h.size ∧
    (∀ row ∈ generateHeatmapData h, row.length = h.size) ∧
    (∀ r c, r < h.size → c < h.size →
      ((generateHeatmapData h).getD r []).getD c 0 =
        lookupCount h.grid (indexToColumn c ++ Nat.repr (r + 1))) ∧
    (hitSeq (freshHK 6) ["A1", "A1", "F6"]).1 = none ∧
    generateHeatmapData (hitSeq (freshHK 6) ["A1", "A1", "F6"]).2 =
      [[2, 0, 0, 0, 0, 0], [0, 0, 0, 0, 0, 0], [0, 0, 0, 0, 0, 0],
       [0, 0, 0, 0, 0, 0], [0, 0, 0, 0, 0, 0], [0, 0, 0, 0, 0, 1]] ∧
    ((generateHeatmapData (hitSeq (freshHK 6) ["A1", "A1", "F6"]).2).map List.sum).sum = 3 := by
  refine ⟨by simp [generateHeatmapData], ?_, ?_, by decide, by decide, by decide⟩
  · intro row hrow
    unfold generateHeatmapData at hrow
    rw [List.mem_map] at hrow
    obtain ⟨r, hr, hrow⟩ := hrow
    rw [← hrow]
    simp
  · intro r c hr hc
    unfold generateHeatmapData
    rw [getD_range_map _ h.size r [] hr, getD_range_map _ h.size c 0 hc]

theorem C7_raw_counts_witness :
    ((generateHeatmapData (freshHK 6)).getD 0 []).getD 0 0 =
      lookupCount (freshHK 6).grid (indexToColumn 0 ++ Nat.repr (0 + 1)) :=
  (C7_raw_counts (freshHK 6)).2.2.1 0 0 (by decide) (by decide)

/-- C8 counterexample: at count 4 out of maximum 7 the raster cell colour
comes from truncation (intensity 145, colour (255,110,110)), not from
rounding 145.71 to the nearest integer 146 (colour (255,109,109)) as the
claim states. -/
theorem C8_counterexample :
    rasterCellColor 4 7 ≠
      (255, 255 - roundNearest (255 * 4) 7, 255 - roundNearest (255 * 4) 7) := by
  decide

/-- C8 amended: the cell colour is (255, 255 - i, 255 - i) with intensity
i = 255 * value / max truncated toward zero (floor), identical to the
_get_color ramp; a zero maximum renders white. -/
theorem C8_raster_color (v m : Nat) (hm : 0 < m) (hv : v ≤ m) :
    rasterCellColor v m = (255, 255 - 255 * v / m, 255 - 255 * v / m) ∧
    rasterCellColor v m = getColor v m ∧
    rasterCellColor 0 0 = (255, 255, 255) ∧
    getColor 0 m = (255, 255, 255) ∧
    getColor m m = (255, 0, 0) := by
  have hm' : m ≠ 0 := by omega
  have hle : 255 * v / m ≤ 255 := by
    calc 255 * v / m ≤ 255 * m / m :=
          Nat.div_le_div_right (Nat.mul_le_mul_left 255 hv)
    _ = 255 := Nat.mul_div_cancel 255 hm
  have hmod : 255 * v / m % 256 = 255 * v / m := Nat.mod_eq_of_lt (by omega)
  refine ⟨?_, ?_, rfl, ?_, ?_⟩
  · simp [rasterCellColor, hm', hmod]
  · simp [rasterCellColor, getColor, hm', hmod]
  · simp [getColor, hm']
  · have h255 : 255 * m / m = 255 := Nat.mul_div_cancel 255 hm
    simp [getColor, hm', h255]

theorem C8_raster_color_witness :
    rasterCellColor 1 2 = (255, 255 - 255 * 1 / 2, 255 - 255 * 1 / 2) ∧
    rasterCellColor 1 2 = getColor 1 2 :=
  ⟨(C8_raster_color 1 2 (by decide) (by decide)).1,
   (C8_raster_color 1 2 (by decide) (by decide)).2.1⟩

/-- C9 counterexample: on an all-zero grid every cell's ramp colour is
white (255,255,255), whose per-channel quantization gives the colour-cube
index 16 + 36*5 + 6*5 + 5 = 231, but the code emits the grayscale escape
with index 255 instead. -/
theorem C9_counterexample :
    getAsciiColor 0 0 ≠
      ansiFg (16 + 36 * nearestLevel 255 + 6 * nearestLevel 255 + nearestLevel 255) := by
  decide

/-- C9 amended: for a positive maximum each cell is rendered at the 6x6x6
cube index 16 + 36r + 6g + b of the per-channel nearest of the six uniform
levels 0, 51, ..., 255 (nearestLevel is strictly closer than every other
level, ties being impossible); for maximum 0 every cell uses the grayscale
escape index 255, which lies outside the cube, as the all-zero 2 by 2
rendering shows concretely. -/
theorem C9_ascii_color (v m : Nat) (hm : 0 < m) :
    getAsciiColor v m =
      ansiFg (16 + 36 * nearestLevel (getColor v m).1 +
        6 * nearestLevel (getColor v m).2.1 + nearestLevel (getColor v m).2.2) ∧
    (∀ v', getAsciiColor v' 0 = ansiFg 255) ∧
    (∀ c k, c ≤ 255 → k ≤ 5 → k ≠ nearestLevel c →
      (c - 51 * nearestLevel c) + (51 * nearestLevel c - c) <
        (c - 51 * k) + (51 * k - c)) ∧
    (∀ c, c ≤ 255 → nearestLevel c ≤ 5) ∧
    generateAsciiHeatmap (freshHK 2) =
      "   A B \n 1 " ++ ansiFg 255 ++ "██\x1b[0m" ++ ansiFg 255 ++ "██\x1b[0m" ++
        "\n 2 " ++ ansiFg 255 ++ "██\x1b[0m" ++ ansiFg 255 ++ "██\x1b[0m" := by
  have hm' : m ≠ 0 := by omega
  refine ⟨?_, fun v' => rfl, ?_, ?_, by decide⟩
  · rcases hge : getColor v m with ⟨r, g, b⟩
    simp [getAsciiColor, hm', hge]
  · intro c k hc hk hne
    unfold nearestLevel at hne ⊢
    omega
  · intro c hc
    unfold nearestLevel
    omega

theorem C9_ascii_color_witness :
    getAsciiColor 1 1 =
      ansiFg (16 + 36 * nearestLevel (getColor 1 1).1 +
        6 * nearestLevel (getColor 1 1).2.1 + nearestLevel (getColor 1 1).2.2) :=
  (C9_ascii_color 1 1 (by decide)).1

theorem upperChar_alpha {c : Char} (h : isAsciiAlpha c = true) :
    65 ≤ (upperChar c).toNat ∧ (upperChar c).toNat ≤ 90 := by
  rw [alpha_iff] at h
  unfold upperChar
  rcases h with h | h
  · rw [if_neg (by simp; omega)]
    exact h
  · rw [if_pos (by simp; omega)]
    rw [char_toNat_ofNat_small (c.toNat - 32) (by omega)]
    omega

theorem upperChar_upper {c : Char} (h : 65 ≤ c.toNat ∧ c.toNat ≤ 90) :
    upperChar c = c := by
  unfold upperChar
  rw [if_neg (by simp; omega)]

theorem upperChar_map_upper {L : List Char}
    (h : ∀ c ∈ L, 65 ≤ c.toNat ∧ c.toNat ≤ 90) :
    L.map upperChar = L := by
  induction L with
  | nil => rfl
  | cons a l ih =>
    simp [upperChar_upper (h a (by simp)), ih (fun c hc => h c (by simp [hc]))]

theorem upperChar_mem_map {L : List Char} (h : ∀ c ∈ L, isAsciiAlpha c = true) :
    ∀ c ∈ L.map upperChar, isAsciiAlpha c = true ∧ 65 ≤ c.toNat ∧ c.toNat ≤ 90 := by
  intro c hc
  rw [List.mem_map] at hc
  obtain ⟨a, ha, hac⟩ := hc
  subst hac
  have hr := upperChar_alpha (h a ha)
  exact ⟨alpha_iff.mpr (Or.inl hr), hr⟩

theorem digitChar_isDigit : ∀ d, d < 10 → isAsciiDigit (Nat.digitChar d) = true := by
  decide

theorem toDigitsCore_digits :
    ∀ fuel n ds, (∀ c ∈ ds, isAsciiDigit c = true) →
      ∀ c ∈ Nat.toDigitsCore 10 fuel n ds, isAsciiDigit c = true := by
  intro fuel
  induction fuel with
  | zero =>
    intro n ds hds
    exact hds
  | succ fuel ih =>
    intro n ds hds
    simp only [Nat.toDigitsCore]
    split
    · intro c hc
      rcases List.mem_cons.mp hc with hc | hc
      · subst hc
        exact digitChar_isDigit _ (Nat.mod_lt n (by omega))
      · exact hds c hc
    · apply ih
      intro c hc
      rcases List.mem_cons.mp hc with hc | hc
      · subst hc
        exact digitChar_isDigit _ (Nat.mod_lt n (by omega))
      · exact hds c hc

theorem toDigitsCore_ne_nil :
    ∀ fuel n ds, ds ≠ [] → Nat.toDigitsCore 10 fuel n ds ≠ [] := by
  intro fuel
  induction fuel with
  | zero =>
    intro n ds h
    exact h
  | succ fuel ih =>
    intro n ds h
    simp only [Nat.toDigitsCore]
    split
    · simp
    · exact ih _ _ (by simp)

/-- The decimal rendering of a natural number used in grid labels is a
non-empty string of ASCII digits. -/
theorem repr_digits (n : Nat) :
    (Nat.repr n).data ≠ [] ∧ ∀ c ∈ (Nat.repr n).data, isAsciiDigit c = true := by
  have hdata : (Nat.repr n).data = Nat.toDigits 10 n := rfl
  rw [hdata]
  unfold Nat.toDigits
  refine ⟨?_, toDigitsCore_digits _ _ _ (by simp)⟩
  simp only [Nat.toDigitsCore]
  split
  · simp
  · exact toDigitsCore_ne_nil _ _ _ (by simp)

theorem colE_chars : ∀ n, ∀ c ∈ colE n, 65 ≤ c.toNat ∧ c.toNat ≤ 90 := by
  intro n
  induction n using Nat.strong_induction_on with
  | _ n ih =>
    cases n with
    | zero =>
      intro c hc
      simp [colE_zero] at hc
    | succ m =>
      intro c hc
      rw [colE_succ] at hc
      rcases List.mem_append.mp hc with hc | hc
      · exact ih (m / 26) (Nat.lt_succ_of_le (Nat.div_le_self m 26)) c hc
      · rw [List.mem_singleton] at hc
        subst hc
        rw [char_toNat_ofNat_small (65 + m % 26) (by omega)]
        omega

/-- C10: normalize is idempotent: every successful output is a fixed point,
and in particular every label built from column_to_label plus a 1-based row
number normalizes to itself. -/
theorem C10_normalize_idempotent :
    (∀ s t, normalizePoint s = .ok t → normalizePoint t = .ok t) ∧
    (∀ i r : Nat, normalizePoint (indexToColumn i ++ Nat.repr (r + 1)) =
      .ok (indexToColumn i ++ Nat.repr (r + 1))) := by
  have hfix : ∀ (L D : List Char), L ≠ [] →
      (∀ c ∈ L, isAsciiAlpha c = true ∧ 65 ≤ c.toNat ∧ c.toNat ≤ 90) →
      D ≠ [] → (∀ c ∈ D, isAsciiDigit c = true) →
      normalizePoint ⟨L ++ D⟩ = .ok ⟨L ++ D⟩ := by
    intro L D hL hLa hD hDd
    have h1 := (normalizePoint_shapes hL (fun c hc => (hLa c hc).1) hD hDd).1
    rw [upperChar_map_upper (fun c hc => (hLa c hc).2)] at h1
    exact h1
  constructor
  · intro s t ht
    unfold normalizePoint at ht
    cases e1 : parseShape1 s.data with
    | some p =>
      rw [e1] at ht
      obtain ⟨L, D⟩ := p
      obtain ⟨hL, hD, hLa, hDd, hs⟩ := parseShape1_eq_some.mp e1
      simp only at ht
      injection ht with ht'
      rw [← ht']
      apply hfix (L.map upperChar) D
      · simp [hL]
      · exact upperChar_mem_map hLa
      · exact hD
      · exact hDd
    | none =>
      rw [e1] at ht
      cases e2 : parseShape2 s.data with
      | some p =>
        rw [e2] at ht
        obtain ⟨D, L⟩ := p
        obtain ⟨hD, hL, hDd, hLa, hs⟩ := parseShape2_eq_some.mp e2
        simp only at ht
        injection ht with ht'
        rw [← ht']
        apply hfix (L.map upperChar) D
        · simp [hL]
        · exact upperChar_mem_map hLa
        · exact hD
        · exact hDd
      | none =>
        rw [e2] at ht
        exact absurd ht (by simp)
  · intro i r
    have hnorm := hfix (colE (i + 1)) (Nat.repr (r + 1)).data
      (colE_ne_nil _ (by omega))
      (fun c hc => ⟨alpha_iff.mpr (Or.inl (colE_chars _ c hc)), colE_chars _ c hc⟩)
      (repr_digits (r + 1)).1
      (repr_digits (r + 1)).2
    have hs : (⟨colE (i + 1) ++ (Nat.repr (r + 1)).data⟩ : String) =
        indexToColumn i ++ Nat.repr (r + 1) := by
      rw [show indexToColumn i ++ Nat.repr (r + 1) =
        ⟨(indexToColumn i ++ Nat.repr (r + 1)).data⟩ from rfl]
      rw [String.data_append]
      rfl
    rw [hs] at hnorm
    exact hnorm

theorem C10_normalize_idempotent_witness :
    normalizePoint "A1" = Except.ok "A1" :=
  C10_normalize_idempotent.1 "a1" "A1" rfl

end Hitakort
